import Mathlib

/-!
Shallow embedding of the Huffman compressor (`src/Compressor.py`, `src/Node.py`).

Conventions: Python strings of bits are Lean `String`s; the Python `dict`
(insertion-ordered) is an association list `List (Char × Nat)`; Python's
stable `sorted` is an insertion sort that keeps the earlier element first on
ties; operations that can raise (`nodes[0]` on an empty list, `dict[key]`
lookup, `exit(0)`) return `Option`.
-/

/-- Huffman tree node (`Node.py`): a leaf holds a character and its frequency,
an internal node holds the summed frequency and two children.  The `parent`
back-reference and the `code` field of the Python class are not needed by the
encoding pipeline and are omitted. -/
inductive Node where
  | leaf (char : Char) (frequency : Nat)
  | internal (frequency : Nat) (left : Node) (right : Node)
deriving DecidableEq, Repr

def Node.frequency : Node → Nat
  | .leaf _ f => f
  | .internal f _ _ => f

/-- Characters at the leaves, left to right. -/
def Node.leafChars : Node → List Char
  | .leaf c _ => [c]
  | .internal _ l r => l.leafChars ++ r.leafChars

/-- One step of the counting loop of `__create_alphabet_frequency`:
`alphabet_frequency[char] = alphabet_frequency.get(char, 0) + 1` on an
insertion-ordered dict (increment in place if present, append if absent). -/
def bumpChar (c : Char) : List (Char × Nat) → List (Char × Nat)
  | [] => [(c, 1)]
  | p :: rest => if p.1 = c then (p.1, p.2 + 1) :: rest else p :: bumpChar c rest

/-- The character-reading loop of `__create_alphabet_frequency`. -/
def countChars : List Char → List (Char × Nat) → List (Char × Nat)
  | [], acc => acc
  | c :: rest, acc => countChars rest (bumpChar c acc)

/-- Stable insertion: the new element `x` goes in front of the first element
it compares `≤` to, hence behind every earlier element with the same key —
the behaviour of Python's stable `sorted`. -/
def insertSortedBy (r : Char × Nat → Char × Nat → Bool) (x : Char × Nat) :
    List (Char × Nat) → List (Char × Nat)
  | [] => [x]
  | y :: ys => if r x y then x :: y :: ys else y :: insertSortedBy r x ys

def sortPairsBy (r : Char × Nat → Char × Nat → Bool) :
    List (Char × Nat) → List (Char × Nat)
  | [] => []
  | x :: xs => insertSortedBy r x (sortPairsBy r xs)

/-- `sorted(items, key=lambda item: item[0])` of `__create_alphabet_frequency`. -/
def sortBySymbol (l : List (Char × Nat)) : List (Char × Nat) :=
  sortPairsBy (fun p q => p.1 ≤ q.1) l

/-- `sorted(items, key=lambda item: item[1])` of `__create_alphabet_frequency`. -/
def sortByFreq (l : List (Char × Nat)) : List (Char × Nat) :=
  sortPairsBy (fun p q => p.2 ≤ q.2) l

/-- `Compressor.__create_alphabet_frequency`: count every character, then sort
by character ascending, then stably re-sort by frequency ascending. -/
def createAlphabetFrequency (content : List Char) : List (Char × Nat) :=
  sortByFreq (sortBySymbol (countChars content []))

/-- The scanning loop of `__get_two_smallest_nodes` over `nodes[2:]`, carrying
the current two minima. -/
def twoSmallestAux (m1 m2 : Node) : List Node → Node × Node
  | [] => (m1, m2)
  | n :: rest =>
    if n.frequency < m1.frequency then twoSmallestAux n m1 rest
    else if n.frequency < m2.frequency then twoSmallestAux m1 n rest
    else twoSmallestAux m1 m2 rest

/-- `Compressor.__get_two_smallest_nodes`; `none` models the index error on a
list with fewer than two nodes (never reached by `__create_tree`). -/
def getTwoSmallestNodes : List Node → Option (Node × Node)
  | a :: b :: rest =>
    some (if b.frequency < a.frequency then twoSmallestAux b a rest
          else twoSmallestAux a b rest)
  | _ => none

/-- `Compressor.__merge_nodes`: build the parent (frequency = sum, `left` =
`min_node1`, `right` = `min_node2`), remove the first occurrence of each
child from the list (Python `list.remove`) and append the parent. -/
def mergeNodes (nodes : List Node) (m1 m2 : Node) : List Node :=
  ((nodes.erase m1).erase m2) ++ [Node.internal (m1.frequency + m2.frequency) m1 m2]

/-- Stable insertion sort of nodes by frequency: `sorted(nodes, key=lambda
node: node.frequency)` in `__create_tree`. -/
def insertNode (x : Node) : List Node → List Node
  | [] => [x]
  | y :: ys => if x.frequency ≤ y.frequency then x :: y :: ys else y :: insertNode x ys

def sortNodes : List Node → List Node
  | [] => []
  | x :: xs => insertNode x (sortNodes xs)

/-- The `while len(nodes) > 1` loop of `__create_tree`, fuelled (the fuel
passed by `createTree` always suffices).  On the empty list the trailing
`return nodes[0]` raises, modelled as `none`. -/
def buildLoop : Nat → List Node → Option Node
  | _, [] => none
  | _, [n] => some n
  | 0, _ :: _ :: _ => none
  | fuel + 1, a :: b :: rest =>
    let sorted := sortNodes (a :: b :: rest)
    match getTwoSmallestNodes sorted with
    | none => none
    | some (m1, m2) => buildLoop fuel (mergeNodes sorted m1 m2)

/-- The initial working list of `__create_tree`: one leaf per entry of the
frequency dict, in iteration order. -/
def initialNodes (fm : List (Char × Nat)) : List Node :=
  fm.map fun p => Node.leaf p.1 p.2

/-- `Compressor.__create_tree`. -/
def createTree (fm : List (Char × Nat)) : Option Node :=
  buildLoop (initialNodes fm).length (initialNodes fm)

/-- `Compressor.__build_encoding_table`, started with `code = ""`: a leaf
records `char → code`; an internal node recurses left with `code + "0"` and
right with `code + "1"`.  The dict is an association list (its keys are
pairwise distinct in every reachable state, proved below). -/
def buildEncodingTable : Node → String → List (Char × String)
  | .leaf c _, code => [(c, code)]
  | .internal _ l r, code =>
    buildEncodingTable l (code ++ "0") ++ buildEncodingTable r (code ++ "1")

/-- Lowercase hexadecimal digit, as produced by Python escape sequences. -/
def hexDigit (n : Nat) : Char :=
  if n < 10 then Char.ofNat (48 + n) else Char.ofNat (87 + n)

/-- Models the Python builtin expression `repr(c)[1:-1]` for a one-character
string `c` (used by `__write_alphabet_frequency`): backslash, newline,
carriage return and tab become two-character escapes, the other
non-printable Latin-1 characters become `\xNN` with lowercase hex, and every
other character (including both quote characters, whose surrounding
delimiters `repr` chooses so that the inner quote needs no escape) is kept
verbatim.  Characters above U+00FF are kept verbatim, faithful for the
printable ones. -/
def pyCharEscape (c : Char) : String :=
  if c = '\\' then "\\\\"
  else if c = '\n' then "\\n"
  else if c = '\r' then "\\r"
  else if c = '\t' then "\\t"
  else if c.toNat < 32 ∨ (127 ≤ c.toNat ∧ c.toNat ≤ 160) ∨ c.toNat = 173 then
    String.mk ['\\', 'x', hexDigit (c.toNat / 16 % 16), hexDigit (c.toNat % 16)]
  else String.singleton c

/-- `Compressor.__write_alphabet_frequency`: the text written to the sidecar
file — first the decimal count of distinct symbols and a newline, then for
each dict entry the escaped character, a space, the decimal frequency and a
newline. -/
def writeAlphabetFrequency (fm : List (Char × Nat)) : String :=
  fm.foldl (fun acc p => acc ++ pyCharEscape p.1 ++ " " ++ toString p.2 ++ "\n")
    (toString fm.length ++ "\n")

/-- Binary digits of `n`, most significant first (`format(n, "b")` without
padding); the first argument is fuel, `natToBin` passes enough. -/
def natToBinAux : Nat → Nat → List Char
  | _, 0 => []
  | 0, _ + 1 => []
  | fuel + 1, n + 1 =>
    natToBinAux fuel ((n + 1) / 2) ++ [if (n + 1) % 2 = 1 then '1' else '0']

def natToBin (n : Nat) : String :=
  if n = 0 then "0" else String.mk (natToBinAux n n)

/-- The Python format spec `08b`: binary representation left-padded with
zeros to a minimum width of eight. -/
def format08b (n : Nat) : String :=
  String.mk (List.replicate (8 - (natToBin n).length) '0') ++ natToBin n

/-- The `for i in range(extra_padding)` loop of `__pad_encoded_text`,
appending one `"0"` per iteration. -/
def appendZeros : String → Nat → String
  | t, 0 => t
  | t, k + 1 => appendZeros (t ++ "0") k

/-- `Compressor.__pad_encoded_text`: append `8 - len % 8` zero bits, then
prepend that count formatted as eight binary digits. -/
def padEncodedText (encodedText : String) : String :=
  let extraPadding := 8 - encodedText.length % 8
  format08b extraPadding ++ appendZeros encodedText extraPadding

/-- `int(s, 2)` on a string of binary digits. -/
def binToNat (l : List Char) : Nat :=
  l.foldl (fun acc c => 2 * acc + (if c = '1' then 1 else 0)) 0

/-- The `for i in range(0, len(text), 8)` loop of `__get_byte_array`,
fuelled (the fuel passed by `getByteArray` always suffices). -/
def byteChunksAux : Nat → List Char → List Nat
  | _, [] => []
  | 0, _ :: _ => []
  | fuel + 1, c :: rest =>
    binToNat ((c :: rest).take 8) :: byteChunksAux fuel ((c :: rest).drop 8)

/-- `Compressor.__get_byte_array`: if the bit string length is not a multiple
of eight, print a diagnostic and stop (`exit(0)`), modelled as `none`;
otherwise emit one byte value per 8-bit group. -/
def getByteArray (text : String) : Option (List Nat) :=
  if text.length % 8 ≠ 0 then none
  else some (byteChunksAux text.length text.data)

/-- `self.encoding_table[char]`: association-list lookup; `none` models the
`KeyError` on a missing character. -/
def lookupCode (c : Char) : List (Char × String) → Option String
  | [] => none
  | p :: rest => if p.1 = c then some p.2 else lookupCode c rest

/-- The bit-concatenation loop of `Compressor.__encode`. -/
def rawEncode (table : List (Char × String)) : List Char → Option String
  | [] => some ""
  | c :: rest =>
    match lookupCode c table, rawEncode table rest with
    | some code, some tail => some (code ++ tail)
    | _, _ => none

/-- `Compressor.__encode`: concatenate the code of every input character in
order, then pad. -/
def encode (table : List (Char × String)) (content : List Char) : Option String :=
  (rawEncode table content).map padEncodedText

/-- The compressed payload produced by `Compressor.compress` for a given
input content: frequency analysis, tree construction, table derivation,
encoding, byte grouping.  `none` models any failure along the way. -/
def compressPayload (content : List Char) : Option (List Nat) :=
  let fm := createAlphabetFrequency content
  match createTree fm with
  | none => none
  | some tree =>
    match encode (buildEncodingTable tree "") content with
    | none => none
    | some bits => getByteArray bits

/-- The frequency sidecar text produced by `Compressor.compress` (written
only after the tree was built, hence `none` when tree construction fails). -/
def sidecarText (content : List Char) : Option String :=
  let fm := createAlphabetFrequency content
  match createTree fm with
  | none => none
  | some _ => some (writeAlphabetFrequency fm)

/-- Written from the words of the spec, for comparison with the code:
the 8-bit big-endian binary representation of `n` (bit 7 first). -/
def specBigEndian8 (n : Nat) : String :=
  String.mk ((List.range 8).map fun i => if n.testBit (7 - i) then '1' else '0')

/-- First value stored under key `c`, 0 when the key is absent — the read
side of the insertion-ordered dict (`alphabet_frequency.get(char, 0)`). -/
def freqOf (c : Char) : List (Char × Nat) → Nat
  | [] => 0
  | p :: rest => if p.1 = c then p.2 else freqOf c rest

/-- Multiset of all leaf characters across a working list of nodes. -/
def leafMultiset (l : List Node) : Multiset Char :=
  (l.map fun n => (n.leafChars : Multiset Char)).sum

/-- The strict lexicographic order on (frequency, symbol) pairs: the
extensional characterization of the order produced by sorting by symbol
ascending and then stably re-sorting by frequency ascending, when the
symbols are pairwise distinct. -/
def lexFreqSymbol (p q : Char × Nat) : Prop :=
  p.2 < q.2 ∨ (p.2 = q.2 ∧ p.1 < q.1)

/-!  Claim theorems: concrete scenarios and guards. -/

/-- Claim C1 (code bug): for the single-symbol input `"zzzz"` the derived
frequency map is `z ↦ 4` and the tree is the bare leaf, but the
encoding-table builder — called with the initial code `""` and recording the
accumulated code at a leaf without any special case — assigns `z` the
zero-length code `""`, not the one-bit code `"0"` the claim requires; the
produced payload is the bytes `8, 0` rather than the claimed `4, 0`. -/
theorem claimC1_single_symbol_code_empty :
    createAlphabetFrequency "zzzz".data = [('z', 4)]
    ∧ createTree [('z', 4)] = some (Node.leaf 'z' 4)
    ∧ buildEncodingTable (Node.leaf 'z' 4) "" = [('z', "")]
    ∧ buildEncodingTable (Node.leaf 'z' 4) "" ≠ [('z', "0")]
    ∧ compressPayload "zzzz".data = some [8, 0] := by
  refine ⟨by decide, rfl, rfl, by decide, by decide⟩

/-- Claim C2 (code bug): on the empty input the frequency map is empty and
the tree builder reaches `return nodes[0]` on an empty working list — an
uncaught `IndexError`, modelled by `none`, not a structured `EmptyAlphabet`
result — and neither a compressed payload nor a sidecar is produced. -/
theorem claimC2_empty_input_no_tree :
    createAlphabetFrequency [] = []
    ∧ createTree [] = none
    ∧ compressPayload [] = none
    ∧ sidecarText [] = none :=
  ⟨rfl, rfl, rfl, rfl⟩

/-- Claim C3: whenever the bit string handed to the byte grouper has a length
that is not a multiple of eight, the grouper produces no bytes at all — the
guard fires before any byte is emitted, so nothing truncated or corrupt is
ever output. -/
theorem claimC3_misaligned_guard (text : String) (h : text.length % 8 ≠ 0) :
    getByteArray text = none := by
  simp [getByteArray, h]

/-- Witness for claim C3 at the 7-bit string `"0101010"`. -/
theorem claimC3_misaligned_guard_witness :
    ("0101010" : String).length % 8 ≠ 0 ∧ getByteArray "0101010" = none :=
  ⟨by decide, claimC3_misaligned_guard "0101010" (by decide)⟩

/-- Claim C5: on input `"aaab"` the frequency map iterates as `b ↦ 1, a ↦ 3`,
the two leaves merge directly into a root of frequency 4 with left child `b`
and right child `a`, the table assigns `b ↦ "0"` and `a ↦ "1"`, the input
encodes to `"1110"`, padding appends four zero bits and prepends the header
`"00000100"`, and the payload is exactly the bytes `4, 224` (0x04, 0xE0). -/
theorem claimC5_scenario_aaab :
    createAlphabetFrequency "aaab".data = [('b', 1), ('a', 3)]
    ∧ createTree [('b', 1), ('a', 3)]
        = some (Node.internal 4 (Node.leaf 'b' 1) (Node.leaf 'a' 3))
    ∧ buildEncodingTable (Node.internal 4 (Node.leaf 'b' 1) (Node.leaf 'a' 3)) ""
        = [('b', "0"), ('a', "1")]
    ∧ rawEncode [('b', "0"), ('a', "1")] "aaab".data = some "1110"
    ∧ padEncodedText "1110" = "00000100" ++ "11100000"
    ∧ compressPayload "aaab".data = some [4, 224] := by
  refine ⟨by decide, rfl, rfl, by decide, by decide, by decide⟩

/-- Claim C9: compression is deterministic — the compressed payload and the
sidecar text are functions of the input content alone, so two runs on equal
content produce equal artifacts. -/
theorem claimC9_deterministic (s t : List Char) (h : s = t) :
    compressPayload s = compressPayload t ∧ sidecarText s = sidecarText t := by
  subst h; exact ⟨rfl, rfl⟩

/-- Witness for claim C9 at the content `"aaab"`. -/
theorem claimC9_deterministic_witness :
    "aaab".data = "aaab".data
    ∧ (compressPayload "aaab".data = compressPayload "aaab".data
       ∧ sidecarText "aaab".data = sidecarText "aaab".data) :=
  ⟨rfl, claimC9_deterministic "aaab".data "aaab".data rfl⟩

/-!  Padding: supporting lemmas for claims C4 and C10. -/

lemma appendZeros_data (k : Nat) : ∀ t : String,
    (appendZeros t k).data = t.data ++ List.replicate k '0' := by
  induction k with
  | zero => intro t; simp [appendZeros]
  | succ k ih =>
    intro t
    rw [appendZeros, ih]
    simp [String.data_append, List.replicate_succ]

lemma format08b_small_eq_spec : ∀ m < 8,
    format08b (8 - m) = specBigEndian8 (8 - m)
    ∧ (specBigEndian8 (8 - m)).data.length = 8
    ∧ binToNat (specBigEndian8 (8 - m)).data = 8 - m := by decide

lemma padEncodedText_eq (s : String) :
    padEncodedText s
      = specBigEndian8 (8 - s.length % 8)
        ++ (s ++ String.mk (List.replicate (8 - s.length % 8) '0')) := by
  have hm : s.length % 8 < 8 := Nat.mod_lt _ (by norm_num)
  have h1 := (format08b_small_eq_spec (s.length % 8) hm).1
  apply String.ext
  simp only [padEncodedText, h1, String.data_append, appendZeros_data]

/-- Claim C4: the padder appends exactly `extra = 8 - (length mod 8)` zero
bits (a full byte of zeros when the length is already a multiple of eight,
since then `extra = 8`) and prepends the 8-bit big-endian representation of
`extra`; `extra` always lies between 1 and 8. -/
theorem claimC4_pad_format (s : String) :
    1 ≤ 8 - s.length % 8 ∧ 8 - s.length % 8 ≤ 8
    ∧ padEncodedText s
      = specBigEndian8 (8 - s.length % 8)
        ++ (s ++ String.mk (List.replicate (8 - s.length % 8) '0')) := by
  have hm : s.length % 8 < 8 := Nat.mod_lt _ (by norm_num)
  exact ⟨by omega, by omega, padEncodedText_eq s⟩

/-- Claim C10: the padded output has length `8 + input_length + extra` with
`extra = 8 - (input_length mod 8)` in `[1, 8]`, hence a multiple of eight;
the 8-bit header decodes to `extra`, never zero; and the misaligned-bitstream
branch of the byte grouper cannot fire on a padded output. -/
theorem claimC10_pad_alignment (s : String) :
    (padEncodedText s).length = 8 + s.length + (8 - s.length % 8)
    ∧ 1 ≤ 8 - s.length % 8 ∧ 8 - s.length % 8 ≤ 8
    ∧ (padEncodedText s).length % 8 = 0
    ∧ binToNat ((padEncodedText s).data.take 8) = 8 - s.length % 8
    ∧ binToNat ((padEncodedText s).data.take 8) ≠ 0
    ∧ ∃ bs, getByteArray (padEncodedText s) = some bs := by
  have hm : s.length % 8 < 8 := Nat.mod_lt _ (by norm_num)
  obtain ⟨hspec, hlen8, hval⟩ := format08b_small_eq_spec (s.length % 8) hm
  have heq := padEncodedText_eq s
  have hdata : (padEncodedText s).data
      = (specBigEndian8 (8 - s.length % 8)).data
        ++ (s.data ++ List.replicate (8 - s.length % 8) '0') := by
    rw [heq]; simp [String.data_append]
  have hslen : s.length = s.data.length := rfl
  have hlen : (padEncodedText s).length = 8 + s.length + (8 - s.length % 8) := by
    show (padEncodedText s).data.length = _
    rw [hdata]
    simp only [List.length_append, List.length_replicate, hlen8]
    omega
  have htake : (padEncodedText s).data.take 8
      = (specBigEndian8 (8 - s.length % 8)).data := by
    rw [hdata, List.take_left' hlen8]
  have hmod : (padEncodedText s).length % 8 = 0 := by rw [hlen]; omega
  refine ⟨hlen, by omega, by omega, hmod, by rw [htake, hval], ?_, ?_⟩
  · rw [htake, hval]; omega
  · refine ⟨byteChunksAux (padEncodedText s).length (padEncodedText s).data, ?_⟩
    simp [getByteArray, hmod]

/-!  Sidecar layout: supporting lemmas for claim C8. -/

lemma foldl_write_eq (line : Char × Nat → String) :
    ∀ (fm : List (Char × Nat)) (acc : String),
    fm.foldl (fun a p => a ++ line p) acc = acc ++ String.join (fm.map line) := by
  intro fm
  induction fm with
  | nil =>
    intro acc
    apply String.ext
    simp [String.join_eq]
  | cons p rest ih =>
    intro acc
    rw [List.foldl_cons, ih]
    apply String.ext
    simp [String.join_eq, String.data_append]

lemma pyCharEscape_no_newline (c : Char) : '\n' ∉ (pyCharEscape c).data := by
  have hd : ∀ n, n < 16 → hexDigit n ≠ '\n' := by decide
  unfold pyCharEscape
  split_ifs with h1 h2 h3 h4 h5
  · decide
  · decide
  · decide
  · decide
  · intro hmem
    have e1 : hexDigit (c.toNat / 16 % 16) ≠ '\n' :=
      hd _ (Nat.mod_lt _ (by norm_num))
    have e2 : hexDigit (c.toNat % 16) ≠ '\n' :=
      hd _ (Nat.mod_lt _ (by norm_num))
    simp only [String.mk, List.mem_cons, List.mem_singleton] at hmem
    rcases hmem with h | h | h | h | h
    · exact absurd h.symm (by decide)
    · exact absurd h.symm (by decide)
    · exact e1 h.symm
    · exact e2 h.symm
    · exact absurd h (by simp)
  · intro hmem
    change '\n' ∈ [c] at hmem
    simp only [List.mem_singleton] at hmem
    exact h2 (hmem ▸ rfl)

/-- Claim C8: the sidecar text is exactly the decimal count of distinct
symbols and a newline, followed — in the frequency map's iteration order —
by one line per symbol of the form escaped symbol, space, decimal frequency,
newline; and an escaped symbol never contains a newline, so each entry
occupies exactly one line. -/
theorem claimC8_sidecar_layout (fm : List (Char × Nat)) :
    writeAlphabetFrequency fm
      = toString fm.length ++ "\n"
        ++ String.join (fm.map fun p => pyCharEscape p.1 ++ " " ++ toString p.2 ++ "\n")
    ∧ ∀ c : Char, '\n' ∉ (pyCharEscape c).data := by
  constructor
  · have h := foldl_write_eq
      (fun p => pyCharEscape p.1 ++ " " ++ toString p.2 ++ "\n") fm
      (toString fm.length ++ "\n")
    rw [writeAlphabetFrequency]
    rw [show (fun (a : String) (p : Char × Nat) =>
          a ++ pyCharEscape p.1 ++ " " ++ toString p.2 ++ "\n")
        = fun (a : String) (p : Char × Nat) =>
          a ++ (pyCharEscape p.1 ++ " " ++ toString p.2 ++ "\n") from ?_]
    · rw [h, String.append_assoc]
    · funext a p
      apply String.ext
      simp [String.data_append]
  · exact pyCharEscape_no_newline

/-!  Frequency analysis: supporting lemmas for claims C6 and C7. -/

lemma bumpChar_keys (c : Char) : ∀ acc : List (Char × Nat),
    (bumpChar c acc).map Prod.fst
    = if c ∈ acc.map Prod.fst then acc.map Prod.fst
      else acc.map Prod.fst ++ [c] := by
  intro acc
  induction acc with
  | nil => simp [bumpChar]
  | cons p rest ih =>
    by_cases h : p.1 = c
    · simp [bumpChar, h]
    · by_cases h2 : c ∈ rest.map Prod.fst
      · simp [bumpChar, h, ih, h2, Ne.symm h]
      · simp [bumpChar, h, ih, h2, Ne.symm h]

lemma freqOf_bumpChar (c d : Char) : ∀ acc : List (Char × Nat),
    freqOf c (bumpChar d acc)
    = if c = d then freqOf c acc + 1 else freqOf c acc := by
  intro acc
  induction acc with
  | nil =>
    by_cases h : c = d
    · simp [bumpChar, freqOf, h]
    · have h2 : ¬ d = c := fun e => h e.symm
      simp [bumpChar, freqOf, h, h2]
  | cons p rest ih =>
    by_cases hp : p.1 = d
    · by_cases hc : c = d
      · have h1 : p.1 = c := by rw [hp, hc]
        simp only [bumpChar, if_pos hp, freqOf, if_pos h1, if_pos hc]
      · have h1 : p.1 ≠ c := fun e => hc ((Eq.symm e).trans hp)
        simp only [bumpChar, if_pos hp, freqOf, if_neg h1, if_neg hc]
    · by_cases hpc : p.1 = c
      · have hcd : c ≠ d := fun e => hp (hpc.trans e)
        simp only [bumpChar, if_neg hp, freqOf, if_pos hpc, if_neg hcd]
      · simp only [bumpChar, if_neg hp, freqOf, if_neg hpc, ih]

lemma freqOf_countChars : ∀ (s : List Char) (acc : List (Char × Nat)) (c : Char),
    freqOf c (countChars s acc) = freqOf c acc + s.count c := by
  intro s
  induction s with
  | nil => intro acc c; simp [countChars]
  | cons a rest ih =>
    intro acc c
    rw [countChars, ih, freqOf_bumpChar]
    by_cases h : c = a
    · have h2 : (a == c) = true := by simp [h]
      simp only [if_pos h, List.count_cons, h2, if_true]
      omega
    · have h2 : (a == c) = false := by
        simp only [beq_eq_false_iff_ne, ne_eq]
        exact fun e => h e.symm
      simp [if_neg h, List.count_cons, h2]

lemma mem_keys_countChars : ∀ (s : List Char) (acc : List (Char × Nat)) (c : Char),
    c ∈ (countChars s acc).map Prod.fst ↔ c ∈ acc.map Prod.fst ∨ c ∈ s := by
  intro s
  induction s with
  | nil => intro acc c; simp [countChars]
  | cons a rest ih =>
    intro acc c
    rw [countChars, ih, bumpChar_keys]
    by_cases ha : a ∈ acc.map Prod.fst
    · simp only [ha, if_true, List.mem_cons]
      constructor
      · rintro (h | h)
        · exact Or.inl h
        · exact Or.inr (Or.inr h)
      · rintro (h | h | h)
        · exact Or.inl h
        · exact Or.inl (h ▸ ha)
        · exact Or.inr h
    · simp only [ha, if_false, List.mem_append, List.mem_singleton, List.mem_cons]
      tauto

lemma nodup_keys_countChars : ∀ (s : List Char) (acc : List (Char × Nat)),
    (acc.map Prod.fst).Nodup → ((countChars s acc).map Prod.fst).Nodup := by
  intro s
  induction s with
  | nil => intro acc h; exact h
  | cons a rest ih =>
    intro acc h
    rw [countChars]
    apply ih
    rw [bumpChar_keys]
    by_cases ha : a ∈ acc.map Prod.fst
    · simpa [ha] using h
    · simp only [ha, if_false]
      simp [List.nodup_append, h, ha]

lemma mem_assoc_iff_freqOf : ∀ (l : List (Char × Nat)),
    (l.map Prod.fst).Nodup →
    ∀ (c : Char) (n : Nat), (c, n) ∈ l ↔ c ∈ l.map Prod.fst ∧ n = freqOf c l := by
  intro l
  induction l with
  | nil => intro _ c n; simp
  | cons p rest ih =>
    intro hnd c n
    simp only [List.map_cons, List.nodup_cons] at hnd
    obtain ⟨hp, hrest⟩ := hnd
    obtain ⟨pc, pn⟩ := p
    simp only at hp
    by_cases hc : pc = c
    · subst hc
      simp only [List.mem_cons, List.map_cons, freqOf, if_pos rfl, Prod.mk.injEq,
        true_and, true_or, true_iff, if_true]
      constructor
      · rintro (hn | hm)
        · exact hn
        · exact absurd (List.mem_map_of_mem Prod.fst hm) hp
      · intro hn
        exact Or.inl hn
    · rw [List.mem_cons, ih hrest c n]
      simp only [List.mem_cons, List.map_cons, freqOf, if_neg hc, Prod.mk.injEq]
      constructor
      · rintro (⟨he, -⟩ | ⟨hk, hv⟩)
        · exact absurd he.symm hc
        · exact ⟨Or.inr hk, hv⟩
      · rintro ⟨hk | hk, hv⟩
        · exact absurd hk.symm hc
        · exact Or.inr ⟨hk, hv⟩

/-!  Stable sorting: supporting lemmas for claims C6 and C7. -/

lemma insertSortedBy_perm (r : Char × Nat → Char × Nat → Bool) (x : Char × Nat) :
    ∀ l : List (Char × Nat), List.Perm (insertSortedBy r x l) (x :: l) := by
  intro l
  induction l with
  | nil => simp [insertSortedBy]
  | cons y ys ih =>
    rw [insertSortedBy]
    by_cases h : r x y = true
    · rw [if_pos h]
    · rw [if_neg h]
      exact (ih.cons y).trans (List.Perm.swap x y ys)

lemma sortPairsBy_perm (r : Char × Nat → Char × Nat → Bool) :
    ∀ l : List (Char × Nat), List.Perm (sortPairsBy r l) l := by
  intro l
  induction l with
  | nil => simp [sortPairsBy]
  | cons x xs ih => exact (insertSortedBy_perm r x _).trans (ih.cons x)

lemma mem_insertSortedBy (r : Char × Nat → Char × Nat → Bool)
    (x : Char × Nat) (l : List (Char × Nat)) (z : Char × Nat) :
    z ∈ insertSortedBy r x l ↔ z = x ∨ z ∈ l := by
  rw [(insertSortedBy_perm r x l).mem_iff]
  simp

lemma insert_symbol_pairwise (x : Char × Nat) : ∀ l : List (Char × Nat),
    l.Pairwise (fun p q => p.1 ≤ q.1) →
    (insertSortedBy (fun p q => p.1 ≤ q.1) x l).Pairwise (fun p q => p.1 ≤ q.1) := by
  intro l
  induction l with
  | nil => intro _; simp [insertSortedBy]
  | cons y ys ih =>
    intro hl
    rw [List.pairwise_cons] at hl
    obtain ⟨hy, hys⟩ := hl
    rw [insertSortedBy]
    by_cases hxy : x.1 ≤ y.1
    · rw [if_pos (by simpa using hxy)]
      refine List.Pairwise.cons ?_ (List.Pairwise.cons hy hys)
      intro z hz
      rcases List.mem_cons.mp hz with rfl | hz2
      · exact hxy
      · exact hxy.trans (hy z hz2)
    · rw [if_neg (by simpa using hxy)]
      have hyx : y.1 ≤ x.1 := le_of_not_le hxy
      refine List.Pairwise.cons ?_ (ih hys)
      intro z hz
      rcases (mem_insertSortedBy _ _ _ z).mp hz with rfl | hz2
      · exact hyx
      · exact hy z hz2

lemma sortBySymbol_pairwise_le (l : List (Char × Nat)) :
    (sortBySymbol l).Pairwise (fun p q => p.1 ≤ q.1) := by
  rw [sortBySymbol]
  induction l with
  | nil => simp [sortPairsBy]
  | cons x xs ih =>
    rw [sortPairsBy]
    exact insert_symbol_pairwise x _ ih

lemma sortBySymbol_pairwise_lt (l : List (Char × Nat))
    (hnd : (l.map Prod.fst).Nodup) :
    (sortBySymbol l).Pairwise (fun p q => p.1 < q.1) := by
  have hperm : List.Perm (sortBySymbol l) l := sortPairsBy_perm _ l
  have hnd2 : ((sortBySymbol l).map Prod.fst).Nodup :=
    ((hperm.map Prod.fst).nodup_iff).mpr hnd
  have hne : (sortBySymbol l).Pairwise (fun p q => p.1 ≠ q.1) :=
    List.pairwise_map.mp hnd2
  exact ((sortBySymbol_pairwise_le l).and hne).imp fun h => lt_of_le_of_ne h.1 h.2

lemma insert_freq_pairwise (x : Char × Nat) : ∀ l : List (Char × Nat),
    l.Pairwise lexFreqSymbol → (∀ y ∈ l, x.1 < y.1) →
    (insertSortedBy (fun p q => p.2 ≤ q.2) x l).Pairwise lexFreqSymbol := by
  intro l
  induction l with
  | nil => intro _ _; simp [insertSortedBy]
  | cons y ys ih =>
    intro hl hx
    rw [List.pairwise_cons] at hl
    obtain ⟨hy, hys⟩ := hl
    rw [insertSortedBy]
    by_cases hxy : x.2 ≤ y.2
    · rw [if_pos (by simpa using hxy)]
      refine List.Pairwise.cons ?_ (List.Pairwise.cons hy hys)
      intro z hz
      have hz2 : x.2 ≤ z.2 := by
        rcases List.mem_cons.mp hz with rfl | hz2
        · exact hxy
        · refine hxy.trans ?_
          rcases hy z hz2 with h | ⟨h, -⟩
          · exact le_of_lt h
          · exact le_of_eq h
      rcases lt_or_eq_of_le hz2 with h | h
      · exact Or.inl h
      · exact Or.inr ⟨h, hx z hz⟩
    · rw [if_neg (by simpa using hxy)]
      have hyx : y.2 < x.2 := lt_of_not_le hxy
      refine List.Pairwise.cons ?_
        (ih hys fun z hz => hx z (List.mem_cons_of_mem y hz))
      intro z hz
      rcases (mem_insertSortedBy _ _ _ z).mp hz with rfl | hz2
      · exact Or.inl hyx
      · exact hy z hz2

lemma sortByFreq_pairwise : ∀ l : List (Char × Nat),
    l.Pairwise (fun p q => p.1 < q.1) →
    (sortByFreq l).Pairwise lexFreqSymbol := by
  intro l
  induction l with
  | nil => intro _; simp [sortByFreq, sortPairsBy]
  | cons x xs ih =>
    intro hl
    rw [List.pairwise_cons] at hl
    obtain ⟨hx, hxs⟩ := hl
    rw [sortByFreq, sortPairsBy]
    have ih2 := ih hxs
    rw [sortByFreq] at ih2
    refine insert_freq_pairwise x _ ih2 ?_
    intro z hz
    exact hx z ((sortPairsBy_perm _ xs).subset hz)

/-- Claim C6: for every input, the frequency analyzer yields exactly the
(symbol, occurrence-count) pairs of the input, each symbol once, arranged in
the strict lexicographic order by (frequency, then symbol) — the
extensional meaning of sorting by symbol ascending and then stably
re-sorting by frequency ascending, given pairwise-distinct symbols — and
the tree builder's initial working list is one leaf per entry of exactly
this sequence, in the same order. -/
theorem claimC6_frequency_order (s : List Char) :
    ((createAlphabetFrequency s).map Prod.fst).Nodup
    ∧ (∀ c n, (c, n) ∈ createAlphabetFrequency s ↔ c ∈ s ∧ n = s.count c)
    ∧ (createAlphabetFrequency s).Pairwise lexFreqSymbol
    ∧ initialNodes (createAlphabetFrequency s)
      = (createAlphabetFrequency s).map fun p => Node.leaf p.1 p.2 := by
  have hnd0 : ((countChars s []).map Prod.fst).Nodup :=
    nodup_keys_countChars s [] (by simp)
  have hperm : List.Perm (createAlphabetFrequency s) (countChars s []) := by
    have h1 := sortPairsBy_perm (fun p q => p.2 ≤ q.2)
      (sortBySymbol (countChars s []))
    have h2 := sortPairsBy_perm (fun p q => p.1 ≤ q.1) (countChars s [])
    exact h1.trans h2
  refine ⟨?_, ?_, ?_, rfl⟩
  · exact ((hperm.map Prod.fst).nodup_iff).mpr hnd0
  · intro c n
    rw [hperm.mem_iff, mem_assoc_iff_freqOf _ hnd0 c n, mem_keys_countChars,
      freqOf_countChars]
    simp [freqOf]
  · exact sortByFreq_pairwise _ (sortBySymbol_pairwise_lt _ hnd0)

/-!  Tree construction: supporting lemmas for claim C7. -/

lemma insertNode_perm (x : Node) :
    ∀ l : List Node, List.Perm (insertNode x l) (x :: l) := by
  intro l
  induction l with
  | nil => simp [insertNode]
  | cons y ys ih =>
    rw [insertNode]
    by_cases h : x.frequency ≤ y.frequency
    · rw [if_pos h]
    · rw [if_neg h]
      exact (ih.cons y).trans (List.Perm.swap x y ys)

lemma sortNodes_perm : ∀ l : List Node, List.Perm (sortNodes l) l := by
  intro l
  induction l with
  | nil => simp [sortNodes]
  | cons x xs ih => exact (insertNode_perm x _).trans (ih.cons x)

lemma leafMultiset_cons (n : Node) (l : List Node) :
    leafMultiset (n :: l) = (n.leafChars : Multiset Char) + leafMultiset l := by
  simp [leafMultiset]

lemma leafMultiset_append (l1 l2 : List Node) :
    leafMultiset (l1 ++ l2) = leafMultiset l1 + leafMultiset l2 := by
  simp [leafMultiset]

lemma leafMultiset_perm {l1 l2 : List Node} (h : List.Perm l1 l2) :
    leafMultiset l1 = leafMultiset l2 :=
  (h.map _).sum_eq

lemma twoSmallestAux_le : ∀ (l : List Node) (m1 m2 : Node),
    (twoSmallestAux m1 m2 l).1 ::ₘ (twoSmallestAux m1 m2 l).2 ::ₘ 0
      ≤ m1 ::ₘ m2 ::ₘ (l : Multiset Node) := by
  intro l
  induction l with
  | nil => intro m1 m2; simp [twoSmallestAux]
  | cons n rest ih =>
    intro m1 m2
    rw [twoSmallestAux]
    rw [← Multiset.cons_coe]
    by_cases h1 : n.frequency < m1.frequency
    · rw [if_pos h1]
      refine (ih n m1).trans ?_
      rw [Multiset.cons_swap n m1]
      exact Multiset.cons_le_cons m1 (Multiset.le_cons_self _ m2)
    · rw [if_neg h1]
      by_cases h2 : n.frequency < m2.frequency
      · rw [if_pos h2]
        refine (ih m1 n).trans ?_
        exact Multiset.cons_le_cons m1 (Multiset.le_cons_self _ m2)
      · rw [if_neg h2]
        refine (ih m1 m2).trans ?_
        exact Multiset.cons_le_cons m1
          (Multiset.cons_le_cons m2 (Multiset.le_cons_self _ n))

lemma getTwoSmallestNodes_le (l : List Node) (m1 m2 : Node)
    (h : getTwoSmallestNodes l = some (m1, m2)) :
    m1 ::ₘ m2 ::ₘ 0 ≤ (l : Multiset Node) := by
  match l with
  | [] => simp [getTwoSmallestNodes] at h
  | [a] => simp [getTwoSmallestNodes] at h
  | a :: b :: rest =>
    rw [getTwoSmallestNodes] at h
    rw [show ((a :: b :: rest : List Node) : Multiset Node)
        = a ::ₘ b ::ₘ (rest : Multiset Node) by
      rw [Multiset.cons_coe, Multiset.cons_coe]]
    by_cases hb : b.frequency < a.frequency
    · rw [if_pos hb, Option.some_inj] at h
      have h2 := twoSmallestAux_le rest b a
      rw [h] at h2
      simp only at h2
      rw [Multiset.cons_swap a b]
      exact h2
    · rw [if_neg hb, Option.some_inj] at h
      have h2 := twoSmallestAux_le rest a b
      rw [h] at h2
      simp only at h2
      exact h2

lemma getTwoSmallestNodes_of_length (l : List Node) (h : 2 ≤ l.length) :
    ∃ p, getTwoSmallestNodes l = some p := by
  match l with
  | [] => simp at h
  | [a] => simp at h
  | a :: b :: rest => exact ⟨_, rfl⟩

lemma merge_step_perm (l : List Node) (m1 m2 : Node)
    (h : m1 ::ₘ m2 ::ₘ 0 ≤ (l : Multiset Node)) :
    List.Perm l (m1 :: m2 :: ((l.erase m1).erase m2)) := by
  have hm1 : m1 ∈ l := by
    rw [← Multiset.mem_coe]
    exact Multiset.mem_of_le h (Multiset.mem_cons_self _ _)
  have h2 : (m2 ::ₘ 0 : Multiset Node) ≤ ((l : Multiset Node)).erase m1 := by
    have h3 := Multiset.erase_le_erase m1 h
    rwa [Multiset.erase_cons_head] at h3
  have hm2 : m2 ∈ l.erase m1 := by
    rw [← Multiset.mem_coe, ← Multiset.coe_erase]
    exact Multiset.mem_of_le h2 (Multiset.mem_cons_self _ _)
  exact (List.perm_cons_erase hm1).trans ((List.perm_cons_erase hm2).cons m1)

lemma leafMultiset_mergeNodes (l : List Node) (m1 m2 : Node)
    (h : m1 ::ₘ m2 ::ₘ 0 ≤ (l : Multiset Node)) :
    leafMultiset (mergeNodes l m1 m2) = leafMultiset l
    ∧ (mergeNodes l m1 m2).length + 1 = l.length := by
  have hperm := merge_step_perm l m1 m2 h
  constructor
  · rw [leafMultiset_perm hperm, mergeNodes, leafMultiset_append,
      leafMultiset_cons, leafMultiset_cons, leafMultiset_cons]
    have hi : ((Node.internal (m1.frequency + m2.frequency) m1 m2).leafChars
        : Multiset Char) = ↑m1.leafChars + ↑m2.leafChars := by
      rw [show (Node.internal (m1.frequency + m2.frequency) m1 m2).leafChars
          = m1.leafChars ++ m2.leafChars from rfl, ← Multiset.coe_add]
    rw [hi]
    rw [show leafMultiset [] = 0 from rfl]
    abel
  · have hlen := hperm.length_eq
    simp only [List.length_cons] at hlen
    simp only [mergeNodes, List.length_append, List.length_singleton]
    omega

lemma buildLoop_some : ∀ (fuel : Nat) (l : List Node), l ≠ [] →
    l.length ≤ fuel + 1 →
    ∃ t, buildLoop fuel l = some t
      ∧ (t.leafChars : Multiset Char) = leafMultiset l := by
  intro fuel
  induction fuel with
  | zero =>
    intro l hne hlen
    match l with
    | [] => exact absurd rfl hne
    | [n] => exact ⟨n, rfl, by simp [leafMultiset]⟩
    | a :: b :: rest => simp at hlen
  | succ fuel ih =>
    intro l hne hlen
    match l with
    | [] => exact absurd rfl hne
    | [n] => exact ⟨n, rfl, by simp [leafMultiset]⟩
    | a :: b :: rest =>
      have hslen : (sortNodes (a :: b :: rest)).length
          = (a :: b :: rest).length := (sortNodes_perm _).length_eq
      obtain ⟨⟨m1, m2⟩, hsm⟩ :=
        getTwoSmallestNodes_of_length (sortNodes (a :: b :: rest))
          (by rw [hslen]; simp)
      have hle := getTwoSmallestNodes_le _ _ _ hsm
      obtain ⟨hmul, hlen2⟩ := leafMultiset_mergeNodes _ _ _ hle
      have hne2 : mergeNodes (sortNodes (a :: b :: rest)) m1 m2 ≠ [] := by
        simp [mergeNodes]
      have hlen3 : (mergeNodes (sortNodes (a :: b :: rest)) m1 m2).length
          ≤ fuel + 1 := by
        simp only [List.length_cons] at hlen hslen
        omega
      obtain ⟨t, ht, hleaves⟩ := ih _ hne2 hlen3
      refine ⟨t, ?_, ?_⟩
      · rw [buildLoop]
        simp only [hsm]
        exact ht
      · rw [ht] at *
        rw [hleaves, hmul]
        exact leafMultiset_perm (sortNodes_perm _)

/-!  Encoding table: completeness and prefix-freeness (claim C7). -/

lemma buildEncodingTable_keys : ∀ (t : Node) (code : String),
    (buildEncodingTable t code).map Prod.fst = t.leafChars := by
  intro t
  induction t with
  | leaf c f => intro code; simp [buildEncodingTable, Node.leafChars]
  | internal f l r ihl ihr =>
    intro code
    simp [buildEncodingTable, Node.leafChars, ihl, ihr]

lemma buildEncodingTable_code_extends : ∀ (t : Node) (code : String),
    ∀ p ∈ buildEncodingTable t code, code.data <+: p.2.data := by
  intro t
  induction t with
  | leaf c f =>
    intro code p hp
    simp only [buildEncodingTable, List.mem_singleton] at hp
    rw [hp]
  | internal f l r ihl ihr =>
    intro code p hp
    rw [buildEncodingTable, List.mem_append] at hp
    rcases hp with h | h
    · have h2 : (code ++ "0").data <+: p.2.data := ihl _ p h
      rw [String.data_append] at h2
      exact (List.prefix_append _ _).trans h2
    · have h2 : (code ++ "1").data <+: p.2.data := ihr _ p h
      rw [String.data_append] at h2
      exact (List.prefix_append _ _).trans h2

lemma not_prefix_of_branch {base : List Char} {x y : Char} (hxy : x ≠ y)
    {u v : List Char} (hu : base ++ [x] <+: u) (hv : base ++ [y] <+: v) :
    ¬ u <+: v := by
  intro huv
  have h1 : base ++ [x] <+: v := hu.trans huv
  have h2 : base ++ [x] <+: base ++ [y] :=
    List.prefix_of_prefix_length_le h1 hv (by simp)
  have h3 : base ++ [x] = base ++ [y] := by
    have h4 := List.prefix_iff_eq_take.mp h2
    rw [show (base ++ [x]).length = (base ++ [y]).length by simp] at h4
    rw [List.take_length] at h4
    exact h4
  exact hxy (by simpa using List.append_cancel_left h3)

lemma buildEncodingTable_pairwise : ∀ (t : Node) (code : String),
    (buildEncodingTable t code).Pairwise
      (fun p q => ¬ p.2.data <+: q.2.data ∧ ¬ q.2.data <+: p.2.data) := by
  intro t
  induction t with
  | leaf c f => intro code; simp [buildEncodingTable]
  | internal f l r ihl ihr =>
    intro code
    rw [buildEncodingTable, List.pairwise_append]
    refine ⟨ihl _, ihr _, ?_⟩
    intro p hp q hq
    have hpu : code.data ++ ['0'] <+: p.2.data := by
      have h2 := buildEncodingTable_code_extends l _ p hp
      rwa [String.data_append] at h2
    have hqv : code.data ++ ['1'] <+: q.2.data := by
      have h2 := buildEncodingTable_code_extends r _ q hq
      rwa [String.data_append] at h2
    exact ⟨not_prefix_of_branch (by decide) hpu hqv,
           not_prefix_of_branch (by decide) hqv hpu⟩

lemma createAlphabetFrequency_perm_counts (s : List Char) :
    List.Perm (createAlphabetFrequency s) (countChars s []) :=
  (sortPairsBy_perm _ _).trans (sortPairsBy_perm _ _)

lemma createAlphabetFrequency_ne_nil (s : List Char) (hs : s ≠ []) :
    createAlphabetFrequency s ≠ [] := by
  match s with
  | c :: rest =>
    intro h
    have hmem : c ∈ (countChars (c :: rest) []).map Prod.fst :=
      (mem_keys_countChars _ [] c).mpr (Or.inr (List.mem_cons_self c rest))
    have hperm := createAlphabetFrequency_perm_counts (c :: rest)
    rw [h] at hperm
    rw [hperm.symm.eq_nil] at hmem
    simp at hmem

lemma leafMultiset_initialNodes (fm : List (Char × Nat)) :
    leafMultiset (initialNodes fm) = ((fm.map Prod.fst : List Char) : Multiset Char) := by
  induction fm with
  | nil => rfl
  | cons p rest ih =>
    rw [show initialNodes (p :: rest)
        = Node.leaf p.1 p.2 :: initialNodes rest from rfl]
    rw [leafMultiset_cons, ih, List.map_cons, ← Multiset.cons_coe]
    rw [show (Node.leaf p.1 p.2).leafChars = [p.1] from rfl]
    rw [show (([p.1] : List Char) : Multiset Char) = {p.1} from rfl]
    rw [Multiset.singleton_add]

lemma createTree_some (fm : List (Char × Nat)) (h : fm ≠ []) :
    ∃ t, createTree fm = some t
      ∧ (t.leafChars : Multiset Char) = ↑(fm.map Prod.fst) := by
  have hne : initialNodes fm ≠ [] := by
    simpa [initialNodes] using h
  obtain ⟨t, ht, hl⟩ :=
    buildLoop_some (initialNodes fm).length (initialNodes fm) hne (by omega)
  exact ⟨t, ht, by rw [hl, leafMultiset_initialNodes]⟩

/-- Claim C7: for every non-empty input, tree construction succeeds and the
derived encoding table lists exactly the symbols of the frequency map — a
permutation of its key sequence, each symbol appearing exactly once — and
its codes are prefix-free: for any two distinct entries, neither code (as a
character sequence) is a prefix of the other. -/
theorem claimC7_table_complete_prefix_free (s : List Char) (hs : s ≠ []) :
    ∃ t, createTree (createAlphabetFrequency s) = some t
    ∧ List.Perm ((buildEncodingTable t "").map Prod.fst)
        ((createAlphabetFrequency s).map Prod.fst)
    ∧ (∀ c, c ∈ (createAlphabetFrequency s).map Prod.fst →
        ((buildEncodingTable t "").map Prod.fst).count c = 1)
    ∧ (buildEncodingTable t "").Pairwise
        (fun p q => ¬ p.2.data <+: q.2.data ∧ ¬ q.2.data <+: p.2.data) := by
  obtain ⟨t, ht, hl⟩ := createTree_some _ (createAlphabetFrequency_ne_nil s hs)
  have hkeys : (buildEncodingTable t "").map Prod.fst = t.leafChars :=
    buildEncodingTable_keys t ""
  have hperm : List.Perm ((buildEncodingTable t "").map Prod.fst)
      ((createAlphabetFrequency s).map Prod.fst) := by
    rw [hkeys]
    exact Multiset.coe_eq_coe.mp hl
  refine ⟨t, ht, hperm, ?_, buildEncodingTable_pairwise t ""⟩
  intro c hc
  have hnd : ((buildEncodingTable t "").map Prod.fst).Nodup := by
    refine (hperm.nodup_iff).mpr ?_
    have hnd0 : ((countChars s []).map Prod.fst).Nodup :=
      nodup_keys_countChars s [] (by simp)
    exact (((createAlphabetFrequency_perm_counts s).map Prod.fst).nodup_iff).mpr hnd0
  exact List.count_eq_one_of_mem hnd (hperm.mem_iff.mpr hc)

/-- Witness for claim C7 at the input `"ab"`. -/
theorem claimC7_witness :
    "ab".data ≠ []
    ∧ (∃ t, createTree (createAlphabetFrequency "ab".data) = some t
      ∧ List.Perm ((buildEncodingTable t "").map Prod.fst)
          ((createAlphabetFrequency "ab".data).map Prod.fst)
      ∧ (∀ c, c ∈ (createAlphabetFrequency "ab".data).map Prod.fst →
          ((buildEncodingTable t "").map Prod.fst).count c = 1)
      ∧ (buildEncodingTable t "").Pairwise
          (fun p q => ¬ p.2.data <+: q.2.data ∧ ¬ q.2.data <+: p.2.data)) :=
  ⟨by decide, claimC7_table_complete_prefix_free "ab".data (by decide)⟩
